import Mathlib

/-!
Formal model of the Umbral capsule component (umbral-pre/src/capsule.rs).

The curve group used by the implementation is a cyclic group of prime order
q, so it is modelled (up to the canonical isomorphism) as the additive group
of ZMod q: curve points and curve scalars are both values of ZMod q, point
addition is ring addition, scalar multiplication of a point by a scalar is
ring multiplication, and the group identity is 0.  The external
collaborators of capsule.rs (the curve generator, the three domain
separated hash functions, key derivation), whose sources are outside the
reviewed tree, are collected in an environment structure and modelled from
the specification.
-/

namespace Umbral

/-- Fallible scalar inversion, mirroring the inversion of the curve scalar
type (a CtOption in the implementation), which signals the zero scalar
distinctly from returning a valid inverse. -/
def invert {q : ℕ} (x : ZMod q) : Option (ZMod q) :=
  if x = 0 then none else some x⁻¹

/-- Modelled from the spec: the external collaborators of capsule.rs
(curve.rs, hashing_ds.rs), namely the fixed curve generator and the three
domain separated hash functions of section 2 of the spec.  `I` is the
opaque type of key fragment identifiers. -/
structure Env (q : ℕ) (I : Type) where
  g : ZMod q
  hashCapsulePoints : ZMod q → ZMod q → ZMod q
  hashToPolynomialArg : ZMod q → ZMod q → ZMod q → I → ZMod q
  hashToSharedSecret : ZMod q → ZMod q → ZMod q → ZMod q

/-- Modelled from the spec: the public key derivation of keys.rs (outside
the reviewed tree): a public key point is the generator multiplied by the
secret scalar. -/
def publicKeyPoint {q : ℕ} {I : Type} (env : Env q I) (sk : ZMod q) : ZMod q :=
  env.g * sk

/-- The Capsule struct of capsule.rs.  The `params` field is a fixed
protocol constant equal at every construction site and is therefore
omitted from the model; structural equality on the remaining fields
mirrors the derived PartialEq. -/
structure Capsule (q : ℕ) where
  point_e : ZMod q
  point_v : ZMod q
  signature : ZMod q
  deriving DecidableEq

/-- The fields of CapsuleFrag (capsule_frag.rs, outside the reviewed tree)
that capsule.rs reads: two re-encrypted points, the key fragment id and
the batch precursor point. -/
structure CapsuleFrag (q : ℕ) (I : Type) where
  point_e1 : ZMod q
  point_v1 : ZMod q
  kfrag_id : I
  precursor : ZMod q
  deriving DecidableEq

/-- The OpenReencryptedError enum of capsule.rs. -/
inductive OpenReencryptedError where
  | NoCapsuleFrags
  | MismatchedCapsuleFrags
  | RepeatingCapsuleFrags
  | ZeroHash
  | ValidationFailed
  deriving DecidableEq

/-- The ConstructionError of traits.rs (outside the reviewed tree): a type
name together with a human readable reason. -/
structure ConstructionError where
  type_name : String
  reason : String
  deriving DecidableEq

/-- Serialization of one curve point or scalar: its canonical value.  One
entry of the byte list stands for one fixed size field encoding. -/
def fieldEncode {q : ℕ} (x : ZMod q) : ℕ :=
  x.val

/-- Parsing of one curve point or scalar encoding, which fails on a value
that is not a canonical encoding (mirroring the fallible take of the
point and scalar types). -/
def fieldDecode (q : ℕ) (n : ℕ) : Option (ZMod q) :=
  if n < q then some (n : ZMod q) else none

/-- Capsule serialization (to_array): the concatenation of the point_e
encoding, the point_v encoding and the signature encoding. -/
def Capsule.to_array {q : ℕ} (c : Capsule q) : List ℕ :=
  [fieldEncode c.point_e, fieldEncode c.point_v, fieldEncode c.signature]

/-- Verifies the integrity of the capsule (Capsule::verify). -/
def Capsule.verify {q : ℕ} {I : Type} (c : Capsule q) (env : Env q I) : Bool :=
  let g := env.g
  let h := env.hashCapsulePoints c.point_e c.point_v
  decide (g * c.signature = c.point_v + c.point_e * h)

/-- Capsule::new_verified: builds the candidate capsule and accepts it only
when the self verification equation holds. -/
def new_verified {q : ℕ} {I : Type} (env : Env q I)
    (point_e point_v signature : ZMod q) : Option (Capsule q) :=
  let capsule : Capsule q := ⟨point_e, point_v, signature⟩
  match capsule.verify env with
  | false => none
  | true => some capsule

/-- Capsule deserialization (from_array): parse the three encodings in
order, then pass the triple through new_verified; any failure yields a
ConstructionError. -/
def from_array {q : ℕ} {I : Type} (env : Env q I) (arr : List ℕ) :
    Except ConstructionError (Capsule q) :=
  match arr with
  | [be, bv, bs] =>
    match fieldDecode q be, fieldDecode q bv, fieldDecode q bs with
    | some point_e, some point_v, some signature =>
      match new_verified env point_e point_v signature with
      | some capsule => .ok capsule
      | none => .error ⟨"Capsule", "Self-verification failed"⟩
    | _, _, _ => .error ⟨"Capsule", "Invalid encoding"⟩
  | _ => .error ⟨"Capsule", "Invalid size"⟩

/-- Capsule::from_public_key: generates a symmetric key and its associated
KEM ciphertext.  The two non zero random scalars drawn inside the function
are passed explicitly, making the entropy draw a parameter. -/
def from_public_key {q : ℕ} {I : Type} (env : Env q I) (delegating_pk : ZMod q)
    (priv_r priv_u : ZMod q) : Capsule q × ZMod q :=
  let g := env.g
  let pub_r := g * priv_r
  let pub_u := g * priv_u
  let h := env.hashCapsulePoints pub_r pub_u
  let s := priv_u + priv_r * h
  let shared_key := delegating_pk * (priv_r + priv_u)
  (⟨pub_r, pub_u, s⟩, shared_key)

/-- Capsule::open_original: derive the same symmetric key from the
delegating secret key. -/
def Capsule.open_original {q : ℕ} (c : Capsule q) (delegating_sk : ZMod q) : ZMod q :=
  (c.point_e + c.point_v) * delegating_sk

/-- One iteration of the loop inside lambda_coeff: skip the own index,
otherwise multiply the accumulator by xs[j] and by the inverse of
(xs[j] - xs[i]), failing when that difference has no inverse. -/
def lambda_step {q : ℕ} (xs : List (ZMod q)) (i : ℕ) (res : ZMod q) (j : ℕ) :
    Option (ZMod q) :=
  if j = i then some res
  else
    match invert (xs.getD j 0 - xs.getD i 0) with
    | none => none
    | some inv_diff => some (res * xs.getD j 0 * inv_diff)

/-- The lambda_coeff helper of capsule.rs: the Lagrange coefficient for
index i over the coordinate list xs, or none when a required difference
inverts to the zero signal. -/
def lambda_coeff {q : ℕ} (xs : List (ZMod q)) (i : ℕ) : Option (ZMod q) :=
  (List.range xs.length).foldlM (lambda_step xs i) 1

/-- One iteration of the reconstruction loop of open_reencrypted: look up
the Lagrange coefficient of the position, failing when it is absent, and
add the scaled fragment points to the two accumulators. -/
def recon_step {q : ℕ} {I : Type} (lc : List (ZMod q))
    (ev : ZMod q × ZMod q) (ic : ℕ × CapsuleFrag q I) : Option (ZMod q × ZMod q) :=
  match lambda_coeff lc ic.1 with
  | none => none
  | some lam => some (ev.1 + ic.2.point_e1 * lam, ev.2 + ic.2.point_v1 * lam)

/-- The Shamir reconstruction loop of open_reencrypted: starting from the
group identity in both accumulators, fold over the indexed fragments. -/
def reconstructEV {q : ℕ} {I : Type} (lc : List (ZMod q))
    (cfrags : List (CapsuleFrag q I)) : Option (ZMod q × ZMod q) :=
  cfrags.enum.foldlM (recon_step lc) (0, 0)

/-- Capsule::open_reencrypted: threshold opening of the capsule from a
collection of capsule fragments. -/
def open_reencrypted {q : ℕ} {I : Type} (env : Env q I) (self : Capsule q)
    (receiving_sk : ZMod q) (delegating_pk : ZMod q)
    (cfrags : List (CapsuleFrag q I)) : Except OpenReencryptedError (ZMod q) :=
  match cfrags with
  | [] => .error .NoCapsuleFrags
  | c0 :: _ =>
    let precursor := c0.precursor
    if cfrags.all fun cfrag => decide (cfrag.precursor = precursor) then
      let pub_key := publicKeyPoint env receiving_sk
      let dh_point := precursor * receiving_sk
      let lc := cfrags.map fun cfrag =>
        env.hashToPolynomialArg precursor pub_key dh_point cfrag.kfrag_id
      match reconstructEV lc cfrags with
      | none => .error .RepeatingCapsuleFrags
      | some (e_prime, v_prime) =>
        let d := env.hashToSharedSecret precursor pub_key dh_point
        let s := self.signature
        let h := env.hashCapsulePoints self.point_e self.point_v
        let orig_pub_key := delegating_pk
        match invert d with
        | none => .error .ZeroHash
        | some inv_d =>
          if orig_pub_key * (s * inv_d) ≠ e_prime * h + v_prime then
            .error .ValidationFailed
          else
            .ok ((e_prime + v_prime) * d)
    else
      .error .MismatchedCapsuleFrags

/-- Value level Lagrange coefficient used in proofs: the product, over the
coordinate list with the own coordinate erased, of y * (y - v)⁻¹. -/
def lamOf {q : ℕ} (xs : List (ZMod q)) (v : ZMod q) : ZMod q :=
  ((xs.erase v).map fun y => y * (y - v)⁻¹).prod

/-- A small concrete environment over ZMod 5 used to evaluate the
definitions on explicit inputs. -/
def envW : Env 5 ℕ :=
  ⟨1, fun _ _ => 0, fun _ _ _ n => (n : ZMod 5), fun _ _ _ => 1⟩

/-- The list of Lagrange coordinates computed inside open_reencrypted for
a fragment list with common precursor p: the hash of the precursor, the
receiver public key point, the Diffie-Hellman point and the fragment id. -/
def coordsOf {q : ℕ} {I : Type} (env : Env q I) (sk : ZMod q) (p : ZMod q)
    (cfrags : List (CapsuleFrag q I)) : List (ZMod q) :=
  cfrags.map fun cfrag =>
    env.hashToPolynomialArg p (publicKeyPoint env sk) (p * sk) cfrag.kfrag_id

/-- The session secret scalar d computed inside open_reencrypted for a
fragment list with common precursor p. -/
def dOf {q : ℕ} {I : Type} (env : Env q I) (sk : ZMod q) (p : ZMod q) : ZMod q :=
  env.hashToSharedSecret p (publicKeyPoint env sk) (p * sk)

/-- A concrete capsule used to evaluate the definitions. -/
def capW : Capsule 5 := ⟨0, 0, 0⟩

/-- A concrete capsule fragment used to evaluate the definitions. -/
def fragW : CapsuleFrag 5 ℕ := ⟨0, 0, 1, 0⟩

/-- Decoding is a one sided inverse of encoding: whenever the decoder
accepts an encoded field element, it returns that element. -/
theorem fieldDecode_fieldEncode {q : ℕ} (x : ZMod q) (y : ZMod q)
    (h : fieldDecode q (fieldEncode x) = some y) : y = x := by
  unfold fieldDecode fieldEncode at h
  split at h
  · have hq : NeZero q := ⟨by omega⟩
    have hx : ((x.val : ℕ) : ZMod q) = x := ZMod.natCast_rightInverse x
    have := Option.some_inj.mp h
    rw [← this, hx]
  · exact absurd h (by simp)

/-- Decoding inverts encoding outright when the modulus is positive. -/
theorem fieldDecode_encode {q : ℕ} [NeZero q] (x : ZMod q) :
    fieldDecode q (fieldEncode x) = some x := by
  unfold fieldDecode fieldEncode
  rw [if_pos (ZMod.val_lt x)]
  exact congrArg some (ZMod.natCast_rightInverse x)

/-- Inversion signals none exactly on the zero scalar. -/
theorem invert_eq_none_iff {q : ℕ} (x : ZMod q) : invert x = none ↔ x = 0 := by
  unfold invert
  split <;> simp_all

/-- Inversion of a non zero scalar returns its field inverse. -/
theorem invert_of_ne {q : ℕ} (x : ZMod q) (hx : x ≠ 0) : invert x = some x⁻¹ := by
  unfold invert
  exact if_neg hx

/-- The loop of lambda_coeff over an arbitrary list of indices, when every
visited difference is non zero, returns the accumulator times the product
of the per index factors. -/
theorem lambda_fold_some {q : ℕ} (xs : List (ZMod q)) (i : ℕ) :
    ∀ (L : List ℕ) (r : ZMod q),
      (∀ j ∈ L, j ≠ i → xs.getD j 0 - xs.getD i 0 ≠ 0) →
      L.foldlM (lambda_step xs i) r
        = some (r * ((L.filter fun j => j != i).map
            fun j => xs.getD j 0 * (xs.getD j 0 - xs.getD i 0)⁻¹).prod) := by
  intro L
  induction L with
  | nil => intro r h; simp
  | cons j L ih =>
    intro r h
    rw [List.foldlM_cons]
    by_cases hj : j = i
    · subst hj
      rw [show lambda_step xs j r j = some r from if_pos rfl]
      simp only [Option.bind_eq_bind, Option.some_bind]
      rw [ih r fun k hk => h k (List.mem_cons_of_mem _ hk)]
      simp
    · have hne : xs.getD j 0 - xs.getD i 0 ≠ 0 := h j (List.mem_cons_self _ _) hj
      rw [show lambda_step xs i r j
          = some (r * xs.getD j 0 * (xs.getD j 0 - xs.getD i 0)⁻¹) from by
        unfold lambda_step
        rw [if_neg hj, invert_of_ne _ hne]]
      simp only [Option.bind_eq_bind, Option.some_bind]
      rw [ih _ fun k hk => h k (List.mem_cons_of_mem _ hk)]
      have hflt : (j :: L).filter (fun k => k != i)
          = j :: L.filter fun k => k != i := by
        simp [List.filter_cons, hj]
      rw [hflt, List.map_cons, List.prod_cons]
      exact congrArg some (by ring)

/-- The loop of lambda_coeff fails exactly when some visited index other
than the own index carries the same coordinate. -/
theorem lambda_fold_none_iff {q : ℕ} (xs : List (ZMod q)) (i : ℕ) :
    ∀ (L : List ℕ) (r : ZMod q),
      (L.foldlM (lambda_step xs i) r = none
        ↔ ∃ j ∈ L, j ≠ i ∧ xs.getD j 0 - xs.getD i 0 = 0) := by
  intro L
  induction L with
  | nil => intro r; simp
  | cons j L ih =>
    intro r
    rw [List.foldlM_cons]
    by_cases hj : j = i
    · subst hj
      rw [show lambda_step xs j r j = some r from if_pos rfl]
      simp only [Option.bind_eq_bind, Option.some_bind]
      rw [ih r]
      constructor
      · rintro ⟨k, hk, hki, hkd⟩
        exact ⟨k, List.mem_cons_of_mem _ hk, hki, hkd⟩
      · rintro ⟨k, hk, hki, hkd⟩
        rcases List.mem_cons.mp hk with h1 | h1
        · exact absurd h1 hki
        · exact ⟨k, h1, hki, hkd⟩
    · rcases hd : invert (xs.getD j 0 - xs.getD i 0) with _ | invd
      · rw [show lambda_step xs i r j = none from by
          unfold lambda_step; rw [if_neg hj, hd]]
        simp only [Option.bind_eq_bind, Option.none_bind]
        exact iff_of_true (by simp)
          ⟨j, List.mem_cons_self _ _, hj, (invert_eq_none_iff _).mp hd⟩
      · have hne : xs.getD j 0 - xs.getD i 0 ≠ 0 := by
          intro h0
          rw [(invert_eq_none_iff _).mpr h0] at hd
          exact Option.noConfusion hd
        rw [show lambda_step xs i r j = some (r * xs.getD j 0 * invd) from by
          unfold lambda_step; rw [if_neg hj, hd]]
        simp only [Option.bind_eq_bind, Option.some_bind]
        rw [ih]
        constructor
        · rintro ⟨k, hk, hki, hkd⟩
          exact ⟨k, List.mem_cons_of_mem _ hk, hki, hkd⟩
        · rintro ⟨k, hk, hki, hkd⟩
          rcases List.mem_cons.mp hk with h1 | h1
          · subst h1; exact absurd hkd hne
          · exact ⟨k, h1, hki, hkd⟩

/-- lambda_coeff fails exactly when another position carries the same
coordinate as position i. -/
theorem lambda_coeff_none_iff {q : ℕ} (xs : List (ZMod q)) (i : ℕ) :
    lambda_coeff xs i = none
      ↔ ∃ j, j < xs.length ∧ j ≠ i ∧ xs.getD j 0 - xs.getD i 0 = 0 := by
  unfold lambda_coeff
  rw [lambda_fold_none_iff]
  simp [List.mem_range]

/-- lambda_coeff, at a position whose coordinate differs from every other
coordinate, returns the product of the per index Lagrange factors. -/
theorem lambda_coeff_some {q : ℕ} (xs : List (ZMod q)) (i : ℕ)
    (h : ∀ j, j < xs.length → j ≠ i → xs.getD j 0 ≠ xs.getD i 0) :
    lambda_coeff xs i
      = some ((((List.range xs.length).filter fun j => j != i).map
          fun j => xs.getD j 0 * (xs.getD j 0 - xs.getD i 0)⁻¹).prod) := by
  unfold lambda_coeff
  rw [lambda_fold_some xs i (List.range xs.length) 1
    fun j hj hji => sub_ne_zero.mpr (h j (List.mem_range.mp hj) hji), one_mul]

/-- At a position below the length of a duplicate free coordinate list,
lambda_coeff succeeds. -/
theorem lambda_coeff_isSome_of_nodup {q : ℕ} (xs : List (ZMod q)) (i : ℕ)
    (hnd : xs.Nodup) (hi : i < xs.length) : (lambda_coeff xs i).isSome := by
  rw [Option.isSome_iff_ne_none]
  intro hno
  rw [lambda_coeff_none_iff] at hno
  obtain ⟨j, hj, hji, hd⟩ := hno
  have heq : xs.getD j 0 = xs.getD i 0 := sub_eq_zero.mp hd
  rw [List.getD_eq_getElem xs 0 hj, List.getD_eq_getElem xs 0 hi] at heq
  exact hji ((hnd.getElem_inj_iff).mp heq)

/-- The reconstruction fold over an arbitrary indexed fragment list, when
every visited Lagrange coefficient exists, accumulates the two sums of
scaled fragment points. -/
theorem recon_fold_some {q : ℕ} {I : Type} (lc : List (ZMod q)) :
    ∀ (pl : List (ℕ × CapsuleFrag q I)) (init : ZMod q × ZMod q),
      (∀ p ∈ pl, (lambda_coeff lc p.1).isSome) →
      pl.foldlM (recon_step lc) init
        = some (init.1 + (pl.map fun p =>
              p.2.point_e1 * ((lambda_coeff lc p.1).getD 0)).sum,
            init.2 + (pl.map fun p =>
              p.2.point_v1 * ((lambda_coeff lc p.1).getD 0)).sum) := by
  intro pl
  induction pl with
  | nil => intro init h; simp
  | cons p pl ih =>
    intro init h
    obtain ⟨lam, hlam⟩ := Option.isSome_iff_exists.mp (h p (List.mem_cons_self _ _))
    rw [List.foldlM_cons]
    rw [show recon_step lc init p
        = some (init.1 + p.2.point_e1 * lam, init.2 + p.2.point_v1 * lam) from by
      unfold recon_step; rw [hlam]]
    simp only [Option.bind_eq_bind, Option.some_bind]
    rw [ih _ fun k hk => h k (List.mem_cons_of_mem _ hk)]
    simp [hlam, add_assoc]

/-- The reconstruction fold fails exactly when some visited position has no
Lagrange coefficient. -/
theorem recon_fold_none_iff {q : ℕ} {I : Type} (lc : List (ZMod q)) :
    ∀ (pl : List (ℕ × CapsuleFrag q I)) (init : ZMod q × ZMod q),
      (pl.foldlM (recon_step lc) init = none
        ↔ ∃ p ∈ pl, lambda_coeff lc p.1 = none) := by
  intro pl
  induction pl with
  | nil => intro init; simp
  | cons p pl ih =>
    intro init
    rw [List.foldlM_cons]
    rcases hlam : lambda_coeff lc p.1 with _ | lam
    · rw [show recon_step lc init p = none from by unfold recon_step; rw [hlam]]
      simp only [Option.bind_eq_bind, Option.none_bind]
      exact iff_of_true (by simp) ⟨p, List.mem_cons_self _ _, hlam⟩
    · rw [show recon_step lc init p
          = some (init.1 + p.2.point_e1 * lam, init.2 + p.2.point_v1 * lam) from by
        unfold recon_step; rw [hlam]]
      simp only [Option.bind_eq_bind, Option.some_bind]
      rw [ih]
      constructor
      · rintro ⟨k, hk, hkn⟩
        exact ⟨k, List.mem_cons_of_mem _ hk, hkn⟩
      · rintro ⟨k, hk, hkn⟩
        rcases List.mem_cons.mp hk with h1 | h1
        · subst h1; rw [hlam] at hkn; exact absurd hkn (by simp)
        · exact ⟨k, h1, hkn⟩

/-- The reconstruction loop fails exactly when some position below the
fragment count has no Lagrange coefficient. -/
theorem reconstructEV_none_iff {q : ℕ} {I : Type} (lc : List (ZMod q))
    (cfrags : List (CapsuleFrag q I)) :
    reconstructEV lc cfrags = none
      ↔ ∃ i, i < cfrags.length ∧ lambda_coeff lc i = none := by
  unfold reconstructEV
  rw [recon_fold_none_iff, List.exists_mem_enum]
  simp

/-- The reconstruction loop, when every position has a Lagrange
coefficient, returns the two sums of scaled fragment points over the
indexed fragments. -/
theorem reconstructEV_some {q : ℕ} {I : Type} (lc : List (ZMod q))
    (cfrags : List (CapsuleFrag q I))
    (h : ∀ i, i < cfrags.length → (lambda_coeff lc i).isSome) :
    reconstructEV lc cfrags
      = some ((cfrags.enum.map fun p =>
            p.2.point_e1 * ((lambda_coeff lc p.1).getD 0)).sum,
          (cfrags.enum.map fun p =>
            p.2.point_v1 * ((lambda_coeff lc p.1).getD 0)).sum) := by
  have hmem : ∀ p ∈ cfrags.enum, (lambda_coeff lc p.1).isSome = true := by
    rw [List.forall_mem_enum]
    intro i hi
    exact h i hi
  unfold reconstructEV
  rw [recon_fold_some lc cfrags.enum (0, 0) hmem]
  simp

/-- C2: every capsule produced by the KEM generation from_public_key
satisfies the self verification invariant
generator * signature = pointV + pointE * HashCapsulePoints(pointE, pointV),
for every delegating public key and every pair of non zero random scalars,
even though from_public_key builds the capsule without re-running the
check. -/
theorem from_public_key_capsule_verifies {q : ℕ} {I : Type} (env : Env q I)
    (delegating_pk r u : ZMod q) (hr : r ≠ 0) (hu : u ≠ 0) :
    ((from_public_key env delegating_pk r u).1).verify env = true := by
  simp only [from_public_key, Capsule.verify, decide_eq_true_eq]
  ring

/-- Witness for C2 at a concrete input. -/
theorem from_public_key_capsule_verifies_witness :
    (1 : ZMod 5) ≠ 0 ∧ ((from_public_key envW 2 1 1).1).verify envW = true :=
  ⟨by decide, from_public_key_capsule_verifies envW 2 1 1 (by decide) (by decide)⟩

/-- C3: for every delegator secret key and non zero random scalars, the
capsule produced by from_public_key on the matching public key opens by
the direct path open_original to exactly the shared secret returned by
from_public_key. -/
theorem open_original_recovers_shared_secret {q : ℕ} {I : Type} (env : Env q I)
    (sk r u : ZMod q) (hr : r ≠ 0) (hu : u ≠ 0) :
    ((from_public_key env (publicKeyPoint env sk) r u).1).open_original sk
      = (from_public_key env (publicKeyPoint env sk) r u).2 := by
  simp only [from_public_key, Capsule.open_original, publicKeyPoint]
  ring

/-- Witness for C3 at a concrete input. -/
theorem open_original_recovers_shared_secret_witness :
    (1 : ZMod 5) ≠ 0 ∧ (2 : ZMod 5) ≠ 0 ∧
      ((from_public_key envW (publicKeyPoint envW 3) 1 2).1).open_original 3
        = (from_public_key envW (publicKeyPoint envW 3) 1 2).2 :=
  ⟨by decide, by decide,
    open_original_recovers_shared_secret envW 3 1 2 (by decide) (by decide)⟩

/-- C4: new_verified returns some capsule exactly when the verification
equation generator * signature = pointV + pointE * HashCapsulePoints holds,
returns none exactly when it fails, and on a failing triple from_array on
the serialized triple returns a ConstructionError rather than a capsule. -/
theorem new_verified_gate {q : ℕ} {I : Type} (env : Env q I) (e v s : ZMod q) :
    ((new_verified env e v s = some ⟨e, v, s⟩)
        ↔ env.g * s = v + e * env.hashCapsulePoints e v)
      ∧ ((new_verified env e v s = none)
        ↔ ¬(env.g * s = v + e * env.hashCapsulePoints e v))
      ∧ (¬(env.g * s = v + e * env.hashCapsulePoints e v) →
          ∃ err, from_array env (Capsule.to_array ⟨e, v, s⟩) = .error err) := by
  by_cases h : env.g * s = v + e * env.hashCapsulePoints e v
  · refine ⟨by simp [new_verified, Capsule.verify, h], by simp [new_verified, Capsule.verify, h],
      fun hc => absurd h hc⟩
  · refine ⟨by simp [new_verified, Capsule.verify, h], by simp [new_verified, Capsule.verify, h],
      fun _ => ?_⟩
    unfold from_array Capsule.to_array
    rcases he : fieldDecode q (fieldEncode (e : ZMod q)) with _ | pe
    · exact ⟨⟨"Capsule", "Invalid encoding"⟩, by simp [he]⟩
    rcases hv : fieldDecode q (fieldEncode (v : ZMod q)) with _ | pv
    · exact ⟨⟨"Capsule", "Invalid encoding"⟩, by simp [he, hv]⟩
    rcases hs : fieldDecode q (fieldEncode (s : ZMod q)) with _ | ps
    · exact ⟨⟨"Capsule", "Invalid encoding"⟩, by simp [he, hv, hs]⟩
    have hpe := fieldDecode_fieldEncode e pe he
    have hpv := fieldDecode_fieldEncode v pv hv
    have hps := fieldDecode_fieldEncode s ps hs
    subst hpe hpv hps
    exact ⟨⟨"Capsule", "Self-verification failed"⟩,
      by simp [he, hv, hs, new_verified, Capsule.verify, h]⟩

/-- Witness for C4 at a concrete input. -/
theorem new_verified_gate_witness :
    ((new_verified envW 0 0 0 = some ⟨0, 0, 0⟩)
        ↔ envW.g * 0 = 0 + 0 * envW.hashCapsulePoints 0 0)
      ∧ ((new_verified envW 0 0 0 = none)
        ↔ ¬(envW.g * 0 = 0 + 0 * envW.hashCapsulePoints 0 0))
      ∧ (¬(envW.g * 0 = 0 + 0 * envW.hashCapsulePoints 0 0) →
          ∃ err, from_array envW (Capsule.to_array (⟨0, 0, 0⟩ : Capsule 5)) = .error err) :=
  new_verified_gate envW 0 0 0

/-- C5: for every capsule satisfying the self verification equation,
deserializing its serialization returns exactly the capsule. -/
theorem to_array_from_array_roundtrip {q : ℕ} {I : Type} [NeZero q] (env : Env q I)
    (c : Capsule q) (hv : c.verify env = true) :
    from_array env c.to_array = .ok c := by
  unfold from_array Capsule.to_array
  have hc : (⟨c.point_e, c.point_v, c.signature⟩ : Capsule q) = c := rfl
  simp only [fieldDecode_encode, new_verified, hc, hv]

/-- open_reencrypted on the empty fragment list signals NoCapsuleFrags. -/
theorem open_reencrypted_nil {q : ℕ} {I : Type} (env : Env q I) (c : Capsule q)
    (sk pk : ZMod q) :
    open_reencrypted env c sk pk [] = .error .NoCapsuleFrags := rfl

/-- The precursor check of open_reencrypted, as a proposition. -/
theorem all_precursor_iff {q : ℕ} {I : Type} (c0 : CapsuleFrag q I)
    (l : List (CapsuleFrag q I)) :
    ((c0 :: l).all fun f => decide (f.precursor = c0.precursor)) = true
      ↔ ∀ f ∈ c0 :: l, f.precursor = c0.precursor := by
  rw [List.all_eq_true]
  simp

/-- open_reencrypted on a fragment list that does not share the precursor
of its first element signals MismatchedCapsuleFrags. -/
theorem open_reencrypted_mismatched {q : ℕ} {I : Type} (env : Env q I) (c : Capsule q)
    (sk pk : ZMod q) (c0 : CapsuleFrag q I) (l : List (CapsuleFrag q I))
    (h : ¬ ∀ f ∈ c0 :: l, f.precursor = c0.precursor) :
    open_reencrypted env c sk pk (c0 :: l) = .error .MismatchedCapsuleFrags := by
  simp only [open_reencrypted]
  rw [if_neg fun hall => h ((all_precursor_iff c0 l).mp hall)]

/-- open_reencrypted on a precursor consistent fragment list reduces to
the reconstruction, the inversion of d and the validation equation. -/
theorem open_reencrypted_consistent {q : ℕ} {I : Type} (env : Env q I) (c : Capsule q)
    (sk pk : ZMod q) (c0 : CapsuleFrag q I) (l : List (CapsuleFrag q I))
    (h : ∀ f ∈ c0 :: l, f.precursor = c0.precursor) :
    open_reencrypted env c sk pk (c0 :: l)
      = match reconstructEV (coordsOf env sk c0.precursor (c0 :: l)) (c0 :: l) with
        | none => Except.error .RepeatingCapsuleFrags
        | some (e_prime, v_prime) =>
          match invert (dOf env sk c0.precursor) with
          | none => Except.error .ZeroHash
          | some inv_d =>
            if pk * (c.signature * inv_d)
                ≠ e_prime * env.hashCapsulePoints c.point_e c.point_v + v_prime then
              Except.error .ValidationFailed
            else
              Except.ok ((e_prime + v_prime) * dOf env sk c0.precursor) := by
  simp only [open_reencrypted, coordsOf, dOf, publicKeyPoint]
  rw [if_pos ((all_precursor_iff c0 l).mpr h)]

/-- On a precursor consistent fragment list the outcome of
open_reencrypted is never NoCapsuleFrags and never
MismatchedCapsuleFrags. -/
theorem open_reencrypted_consistent_ne {q : ℕ} {I : Type} (env : Env q I) (c : Capsule q)
    (sk pk : ZMod q) (c0 : CapsuleFrag q I) (l : List (CapsuleFrag q I))
    (h : ∀ f ∈ c0 :: l, f.precursor = c0.precursor) :
    open_reencrypted env c sk pk (c0 :: l) ≠ .error .NoCapsuleFrags
      ∧ open_reencrypted env c sk pk (c0 :: l) ≠ .error .MismatchedCapsuleFrags := by
  rw [open_reencrypted_consistent env c sk pk c0 l h]
  rcases reconstructEV (coordsOf env sk c0.precursor (c0 :: l)) (c0 :: l) with _ | ⟨ep, vp⟩
  · simp
  · rcases invert (dOf env sk c0.precursor) with _ | invd
    · simp
    · by_cases hv : pk * (c.signature * invd)
          ≠ ep * env.hashCapsulePoints c.point_e c.point_v + vp <;>
        simp [hv]

/-- Witness for C5 at a concrete input. -/
theorem to_array_from_array_roundtrip_witness :
    (⟨0, 0, 0⟩ : Capsule 5).verify envW = true ∧
      from_array envW (Capsule.to_array (⟨0, 0, 0⟩ : Capsule 5)) = .ok ⟨0, 0, 0⟩ :=
  ⟨by decide, to_array_from_array_roundtrip envW ⟨0, 0, 0⟩ (by decide)⟩

/-- C7: open_reencrypted returns NoCapsuleFrags exactly on the empty
fragment list, and MismatchedCapsuleFrags exactly on a non empty list
whose fragments do not all share one precursor; under these conditions no
other error can be produced. -/
theorem open_reencrypted_precondition_errors {q : ℕ} {I : Type} (env : Env q I)
    (c : Capsule q) (sk pk : ZMod q) (cfrags : List (CapsuleFrag q I)) :
    (open_reencrypted env c sk pk cfrags = .error .NoCapsuleFrags ↔ cfrags = [])
      ∧ (open_reencrypted env c sk pk cfrags = .error .MismatchedCapsuleFrags
        ↔ cfrags ≠ [] ∧ ¬ ∃ p, ∀ f ∈ cfrags, f.precursor = p) := by
  cases cfrags with
  | nil =>
    refine ⟨iff_of_true rfl rfl,
      iff_of_false (by intro h; rw [open_reencrypted_nil] at h; simp at h) ?_⟩
    rintro ⟨h, _⟩
    exact h rfl
  | cons c0 l =>
    by_cases hcons : ∀ f ∈ c0 :: l, f.precursor = c0.precursor
    · refine ⟨iff_of_false (open_reencrypted_consistent_ne env c sk pk c0 l hcons).1
          (by simp),
        iff_of_false (open_reencrypted_consistent_ne env c sk pk c0 l hcons).2 ?_⟩
      rintro ⟨_, hnp⟩
      exact hnp ⟨c0.precursor, hcons⟩
    · refine ⟨iff_of_false ?_ (by simp),
        iff_of_true (open_reencrypted_mismatched env c sk pk c0 l hcons) ⟨by simp, ?_⟩⟩
      · rw [open_reencrypted_mismatched env c sk pk c0 l hcons]
        intro h
        simp at h
      · rintro ⟨p, hp⟩
        apply hcons
        intro f hf
        rw [hp f hf, hp c0 (List.mem_cons_self _ _)]

/-- C8: on a non empty precursor consistent fragment list,
open_reencrypted returns RepeatingCapsuleFrags exactly when two distinct
positions carry the same Lagrange coordinate; and lambda_coeff returns the
null signal exactly when some required difference has no inverse. -/
theorem open_reencrypted_repeating_iff {q : ℕ} {I : Type} (env : Env q I)
    (c : Capsule q) (sk pk : ZMod q) (cfrags : List (CapsuleFrag q I)) (p : ZMod q)
    (hne : cfrags ≠ []) (hp : ∀ f ∈ cfrags, f.precursor = p) :
    (open_reencrypted env c sk pk cfrags = .error .RepeatingCapsuleFrags
      ↔ ∃ i j, i < cfrags.length ∧ j < cfrags.length ∧ i ≠ j
          ∧ (coordsOf env sk p cfrags).getD i 0 = (coordsOf env sk p cfrags).getD j 0)
      ∧ ∀ (xs : List (ZMod q)) (i : ℕ),
          (lambda_coeff xs i = none
            ↔ ∃ j, j < xs.length ∧ j ≠ i
                ∧ invert (xs.getD j 0 - xs.getD i 0) = none) := by
  constructor
  · cases cfrags with
    | nil => exact absurd rfl hne
    | cons c0 l =>
      have hp0 : p = c0.precursor := (hp c0 (List.mem_cons_self _ _)).symm
      subst hp0
      have hlen : (coordsOf env sk c0.precursor (c0 :: l)).length = (c0 :: l).length :=
        List.length_map _ _
      rw [open_reencrypted_consistent env c sk pk c0 l hp]
      rcases hEV : reconstructEV (coordsOf env sk c0.precursor (c0 :: l)) (c0 :: l)
        with _ | ⟨ep, vp⟩
      · refine iff_of_true rfl ?_
        rw [reconstructEV_none_iff] at hEV
        obtain ⟨i, hi, hnone⟩ := hEV
        rw [lambda_coeff_none_iff] at hnone
        obtain ⟨j, hj, hji, hd⟩ := hnone
        exact ⟨j, i, hlen ▸ hj, hi, hji, sub_eq_zero.mp hd⟩
      · refine iff_of_false ?_ ?_
        · rcases invert (dOf env sk c0.precursor) with _ | invd
          · simp
          · by_cases hv : pk * (c.signature * invd)
                ≠ ep * env.hashCapsulePoints c.point_e c.point_v + vp <;>
              simp [hv]
        · rintro ⟨i, j, hi, hj, hij, hgd⟩
          have hno : reconstructEV (coordsOf env sk c0.precursor (c0 :: l)) (c0 :: l)
              = none := by
            rw [reconstructEV_none_iff]
            refine ⟨j, hj, ?_⟩
            rw [lambda_coeff_none_iff]
            exact ⟨i, hlen ▸ hi, hij, sub_eq_zero.mpr hgd⟩
          rw [hEV] at hno
          exact Option.noConfusion hno
  · intro xs i
    rw [lambda_coeff_none_iff]
    constructor
    · rintro ⟨j, hj, hji, hd⟩
      exact ⟨j, hj, hji, (invert_eq_none_iff _).mpr hd⟩
    · rintro ⟨j, hj, hji, hd⟩
      exact ⟨j, hj, hji, (invert_eq_none_iff _).mp hd⟩

/-- C9: on a non empty precursor consistent fragment list with pairwise
distinct Lagrange coordinates, open_reencrypted returns ZeroHash exactly
when the session scalar d is the zero scalar. -/
theorem open_reencrypted_zerohash_iff {q : ℕ} {I : Type} (env : Env q I)
    (c : Capsule q) (sk pk : ZMod q) (cfrags : List (CapsuleFrag q I)) (p : ZMod q)
    (hne : cfrags ≠ []) (hp : ∀ f ∈ cfrags, f.precursor = p)
    (hnd : (coordsOf env sk p cfrags).Nodup) :
    (open_reencrypted env c sk pk cfrags = .error .ZeroHash ↔ dOf env sk p = 0) := by
  cases cfrags with
  | nil => exact absurd rfl hne
  | cons c0 l =>
    have hp0 : p = c0.precursor := (hp c0 (List.mem_cons_self _ _)).symm
    subst hp0
    have hlen : (coordsOf env sk c0.precursor (c0 :: l)).length = (c0 :: l).length :=
      List.length_map _ _
    have hsome : ∀ i, i < (c0 :: l).length →
        (lambda_coeff (coordsOf env sk c0.precursor (c0 :: l)) i).isSome := by
      intro i hi
      exact lambda_coeff_isSome_of_nodup _ i hnd (hlen ▸ hi)
    rw [open_reencrypted_consistent env c sk pk c0 l hp,
      reconstructEV_some _ _ hsome]
    by_cases hd : dOf env sk c0.precursor = 0
    · rw [(invert_eq_none_iff _).mpr hd]
      exact iff_of_true rfl hd
    · rw [invert_of_ne _ hd]
      refine iff_of_false ?_ hd
      show (if pk * (c.signature * (dOf env sk c0.precursor)⁻¹)
            ≠ ((c0 :: l).enum.map fun ic => ic.2.point_e1 *
                ((lambda_coeff (coordsOf env sk c0.precursor (c0 :: l)) ic.1).getD 0)).sum
              * env.hashCapsulePoints c.point_e c.point_v
              + ((c0 :: l).enum.map fun ic => ic.2.point_v1 *
                ((lambda_coeff (coordsOf env sk c0.precursor (c0 :: l)) ic.1).getD 0)).sum
          then (Except.error OpenReencryptedError.ValidationFailed :
            Except OpenReencryptedError (ZMod q))
          else Except.ok
            ((((c0 :: l).enum.map fun ic => ic.2.point_e1 *
                ((lambda_coeff (coordsOf env sk c0.precursor (c0 :: l)) ic.1).getD 0)).sum
              + ((c0 :: l).enum.map fun ic => ic.2.point_v1 *
                ((lambda_coeff (coordsOf env sk c0.precursor (c0 :: l)) ic.1).getD 0)).sum)
              * dOf env sk c0.precursor))
        ≠ Except.error OpenReencryptedError.ZeroHash
      split_ifs with hv <;> simp

/-- On a precursor consistent fragment list whose reconstruction succeeds
and whose session scalar is non zero, open_reencrypted reduces to the
validation equation test. -/
theorem open_reencrypted_final {q : ℕ} {I : Type} (env : Env q I) (c : Capsule q)
    (sk pk : ZMod q) (c0 : CapsuleFrag q I) (l : List (CapsuleFrag q I))
    (hcons : ∀ f ∈ c0 :: l, f.precursor = c0.precursor) (ep vp : ZMod q)
    (hEV : reconstructEV (coordsOf env sk c0.precursor (c0 :: l)) (c0 :: l)
      = some (ep, vp))
    (hd : dOf env sk c0.precursor ≠ 0) :
    open_reencrypted env c sk pk (c0 :: l)
      = if pk * (c.signature * (dOf env sk c0.precursor)⁻¹)
            = ep * env.hashCapsulePoints c.point_e c.point_v + vp
        then .ok ((ep + vp) * dOf env sk c0.precursor)
        else .error .ValidationFailed := by
  rw [open_reencrypted_consistent env c sk pk c0 l hcons, hEV, invert_of_ne _ hd]
  show (if pk * (c.signature * (dOf env sk c0.precursor)⁻¹)
        ≠ ep * env.hashCapsulePoints c.point_e c.point_v + vp then
      (Except.error OpenReencryptedError.ValidationFailed :
        Except OpenReencryptedError (ZMod q))
    else Except.ok ((ep + vp) * dOf env sk c0.precursor)) = _
  by_cases hv : pk * (c.signature * (dOf env sk c0.precursor)⁻¹)
      = ep * env.hashCapsulePoints c.point_e c.point_v + vp
  · rw [if_neg fun hne2 => hne2 hv, if_pos hv]
  · rw [if_pos hv, if_neg hv]

/-- C1: on a non empty precursor consistent fragment list with pairwise
distinct Lagrange coordinates and an invertible session scalar d, the
reconstruction succeeds with the two Lagrange sums started at the group
identity, and open_reencrypted returns ok of (E + V) * d when the
validation equation holds and the ValidationFailed error when it does
not. -/
theorem open_reencrypted_lagrange_validation {q : ℕ} {I : Type} (env : Env q I)
    (c : Capsule q) (sk pk : ZMod q) (cfrags : List (CapsuleFrag q I)) (p : ZMod q)
    (hne : cfrags ≠ []) (hp : ∀ f ∈ cfrags, f.precursor = p)
    (hnd : (coordsOf env sk p cfrags).Nodup) (hd : dOf env sk p ≠ 0) :
    ∃ ep vp,
      reconstructEV (coordsOf env sk p cfrags) cfrags = some (ep, vp)
        ∧ ep = (cfrags.enum.map fun ic => ic.2.point_e1 *
            ((lambda_coeff (coordsOf env sk p cfrags) ic.1).getD 0)).sum
        ∧ vp = (cfrags.enum.map fun ic => ic.2.point_v1 *
            ((lambda_coeff (coordsOf env sk p cfrags) ic.1).getD 0)).sum
        ∧ open_reencrypted env c sk pk cfrags
          = if pk * (c.signature * (dOf env sk p)⁻¹)
                = ep * env.hashCapsulePoints c.point_e c.point_v + vp
            then .ok ((ep + vp) * dOf env sk p)
            else .error .ValidationFailed := by
  cases cfrags with
  | nil => exact absurd rfl hne
  | cons c0 l =>
    have hp0 : p = c0.precursor := (hp c0 (List.mem_cons_self _ _)).symm
    subst hp0
    have hlen : (coordsOf env sk c0.precursor (c0 :: l)).length = (c0 :: l).length :=
      List.length_map _ _
    have hsome : ∀ i, i < (c0 :: l).length →
        (lambda_coeff (coordsOf env sk c0.precursor (c0 :: l)) i).isSome := by
      intro i hi
      exact lambda_coeff_isSome_of_nodup _ i hnd (hlen ▸ hi)
    exact ⟨_, _, reconstructEV_some _ _ hsome, rfl, rfl,
      open_reencrypted_final env c sk pk c0 l hp _ _ (reconstructEV_some _ _ hsome) hd⟩

/-- C10: on a single fragment list the Lagrange coefficient is the empty
product one, the reconstruction returns exactly the fragment points, and
the RepeatingCapsuleFrags error is impossible. -/
theorem open_reencrypted_singleton {q : ℕ} {I : Type} (env : Env q I) (c : Capsule q)
    (sk pk : ZMod q) (f : CapsuleFrag q I) :
    (∀ v : ZMod q, lambda_coeff [v] 0 = some 1)
      ∧ reconstructEV (coordsOf env sk f.precursor [f]) [f]
          = some (f.point_e1, f.point_v1)
      ∧ open_reencrypted env c sk pk [f] ≠ .error .RepeatingCapsuleFrags := by
  have hlam : ∀ v : ZMod q, lambda_coeff [v] 0 = some 1 := fun v => rfl
  have hcoords : coordsOf env sk f.precursor [f]
      = [env.hashToPolynomialArg f.precursor (publicKeyPoint env sk)
          (f.precursor * sk) f.kfrag_id] := rfl
  have hEV : reconstructEV (coordsOf env sk f.precursor [f]) [f]
      = some (f.point_e1, f.point_v1) := by
    have hsome : ∀ i, i < ([f] : List (CapsuleFrag q I)).length →
        (lambda_coeff (coordsOf env sk f.precursor [f]) i).isSome := by
      intro i hi
      have hi0 : i = 0 := Nat.lt_one_iff.mp (by simpa using hi)
      subst hi0
      rw [hcoords, hlam]
      rfl
    rw [reconstructEV_some _ _ hsome]
    have henum : ([f] : List (CapsuleFrag q I)).enum = [(0, f)] := rfl
    rw [henum, hcoords]
    simp [hlam]
  have hcons : ∀ g ∈ [f], g.precursor = f.precursor := by
    intro g hg
    rw [List.mem_singleton.mp hg]
  refine ⟨hlam, hEV, ?_⟩
  rw [open_reencrypted_consistent env c sk pk f [] hcons, hEV]
  rcases invert (dOf env sk f.precursor) with _ | invd
  · simp
  · by_cases hv : pk * (c.signature * invd)
        ≠ f.point_e1 * env.hashCapsulePoints c.point_e c.point_v + f.point_v1 <;>
      simp [hv]

/-- Reading every position of a list through getD over its range
reproduces the list. -/
theorem map_getD_range {α : Type} (d : α) :
    ∀ (xs : List α), (List.range xs.length).map (fun j => xs.getD j d) = xs := by
  intro xs
  induction xs with
  | nil => simp
  | cons x xs ih =>
    rw [List.length_cons, List.range_succ_eq_map, List.map_cons, List.map_map]
    rw [show ((fun j => (x :: xs).getD j d) ∘ Nat.succ) = fun j => xs.getD j d from by
      funext j; simp]
    rw [ih]
    simp

/-- Reading the range of a list filtered at one removed index through getD
yields the list with that position erased. -/
theorem range_filter_map_getD {α : Type} (d : α) :
    ∀ (xs : List α) (i : ℕ), i < xs.length →
      (((List.range xs.length).filter fun j => j != i).map fun j => xs.getD j d)
        = xs.eraseIdx i := by
  intro xs
  induction xs with
  | nil => intro i hi; simp at hi
  | cons x xs ih =>
    intro i hi
    rw [List.length_cons, List.range_succ_eq_map]
    cases i with
    | zero =>
      rw [List.filter_cons_of_neg (by simp)]
      rw [List.filter_map Nat.succ (List.range xs.length), List.map_map]
      rw [show ((fun j => j != (0 : ℕ)) ∘ Nat.succ) = fun _ => true from by
        funext j; rfl]
      rw [List.filter_true]
      rw [show ((fun j => (x :: xs).getD j d) ∘ Nat.succ) = fun j => xs.getD j d from by
        funext j; simp]
      rw [map_getD_range]
      rfl
    | succ n =>
      have hn : n < xs.length := by simpa using hi
      rw [List.filter_cons_of_pos (by simp)]
      rw [List.map_cons]
      rw [List.filter_map Nat.succ (List.range xs.length), List.map_map]
      rw [show ((fun j => j != (n + 1 : ℕ)) ∘ Nat.succ) = fun j => j != n from by
        funext j
        show ((j + 1 : ℕ) != (n + 1)) = (j != n)
        by_cases h : j = n
        · subst h; simp
        · simp [h]]
      rw [show ((fun j => (x :: xs).getD j d) ∘ Nat.succ) = fun j => xs.getD j d from by
        funext j; simp]
      rw [ih n hn]
      simp

/-- Erasing the value found at a position of a duplicate free list erases
exactly that position. -/
theorem erase_getD_eq_eraseIdx {α : Type} [DecidableEq α] :
    ∀ (xs : List α) (i : ℕ) (d : α), xs.Nodup → i < xs.length →
      xs.erase (xs.getD i d) = xs.eraseIdx i := by
  intro xs
  induction xs with
  | nil => intro i d _ hi; simp at hi
  | cons x xs ih =>
    intro i d hnd hi
    cases i with
    | zero =>
      rw [List.getD_cons_zero, List.erase_cons_head]
      rfl
    | succ n =>
      have hn : n < xs.length := by simpa using hi
      have hv : xs.getD n d ∈ xs := by
        rw [List.getD_eq_getElem xs d hn]
        exact List.getElem_mem hn
      have hx : ¬(x == xs.getD n d) = true := by
        simp only [beq_iff_eq]
        intro h
        exact (List.nodup_cons.mp hnd).1 (h ▸ hv)
      rw [List.getD_cons_succ, List.erase_cons_tail hx,
        ih n d (List.nodup_cons.mp hnd).2 hn]
      rfl

/-- On a duplicate free coordinate list, the positional Lagrange
coefficient equals its value level form. -/
theorem lambda_coeff_eq_lamOf {q : ℕ} (xs : List (ZMod q)) (i : ℕ)
    (hnd : xs.Nodup) (hi : i < xs.length) :
    lambda_coeff xs i = some (lamOf xs (xs.getD i 0)) := by
  have hdist : ∀ j, j < xs.length → j ≠ i → xs.getD j 0 ≠ xs.getD i 0 := by
    intro j hj hji heq
    rw [List.getD_eq_getElem xs 0 hj, List.getD_eq_getElem xs 0 hi] at heq
    exact hji (hnd.getElem_inj_iff.mp heq)
  rw [lambda_coeff_some xs i hdist]
  congr 1
  unfold lamOf
  rw [erase_getD_eq_eraseIdx xs i 0 hnd hi]
  rw [← range_filter_map_getD 0 xs i hi]
  rw [List.map_map]
  rfl

/-- On a duplicate free coordinate list arising as the image of the
fragments, the reconstruction loop returns the value level Lagrange sums
over the fragments. -/
theorem reconstructEV_value_sums {q : ℕ} {I : Type} (xf : CapsuleFrag q I → ZMod q)
    (l : List (CapsuleFrag q I)) (hnd : (l.map xf).Nodup) :
    reconstructEV (l.map xf) l
      = some ((l.map fun f => f.point_e1 * lamOf (l.map xf) (xf f)).sum,
          (l.map fun f => f.point_v1 * lamOf (l.map xf) (xf f)).sum) := by
  have hlen : (l.map xf).length = l.length := List.length_map _ _
  have hsome : ∀ i, i < l.length → (lambda_coeff (l.map xf) i).isSome := fun i hi =>
    lambda_coeff_isSome_of_nodup _ i hnd (hlen ▸ hi)
  rw [reconstructEV_some _ _ hsome]
  have hcongE : ∀ p ∈ l.enum, p.2.point_e1 * ((lambda_coeff (l.map xf) p.1).getD 0)
      = p.2.point_e1 * lamOf (l.map xf) (xf p.2) := by
    rw [List.forall_mem_enum]
    intro i hi
    show l[i].point_e1 * ((lambda_coeff (l.map xf) i).getD 0)
      = l[i].point_e1 * lamOf (l.map xf) (xf l[i])
    have hi2 : i < (l.map xf).length := hlen ▸ hi
    rw [lambda_coeff_eq_lamOf (l.map xf) i hnd hi2, Option.getD_some,
      List.getD_eq_getElem (l.map xf) 0 hi2, List.getElem_map]
  have hcongV : ∀ p ∈ l.enum, p.2.point_v1 * ((lambda_coeff (l.map xf) p.1).getD 0)
      = p.2.point_v1 * lamOf (l.map xf) (xf p.2) := by
    rw [List.forall_mem_enum]
    intro i hi
    show l[i].point_v1 * ((lambda_coeff (l.map xf) i).getD 0)
      = l[i].point_v1 * lamOf (l.map xf) (xf l[i])
    have hi2 : i < (l.map xf).length := hlen ▸ hi
    rw [lambda_coeff_eq_lamOf (l.map xf) i hnd hi2, Option.getD_some,
      List.getD_eq_getElem (l.map xf) 0 hi2, List.getElem_map]
  rw [List.map_congr_left hcongE, List.map_congr_left hcongV]
  rw [show (fun p : ℕ × CapsuleFrag q I => p.2.point_e1 * lamOf (l.map xf) (xf p.2))
      = ((fun f => f.point_e1 * lamOf (l.map xf) (xf f)) ∘ Prod.snd) from rfl]
  rw [show (fun p : ℕ × CapsuleFrag q I => p.2.point_v1 * lamOf (l.map xf) (xf p.2))
      = ((fun f => f.point_v1 * lamOf (l.map xf) (xf f)) ∘ Prod.snd) from rfl]
  rw [← List.map_map, ← List.map_map]
  rw [show l.enum.map Prod.snd = l from List.enumFrom_map_snd 0 l]

/-- When the coordinate list has a duplicate, the reconstruction loop
fails. -/
theorem reconstructEV_none_of_not_nodup {q : ℕ} {I : Type}
    (xf : CapsuleFrag q I → ZMod q) (l : List (CapsuleFrag q I))
    (hnd : ¬ (l.map xf).Nodup) : reconstructEV (l.map xf) l = none := by
  rw [List.nodup_iff_getElem?_ne_getElem?] at hnd
  push_neg at hnd
  obtain ⟨i, j, hij, hj, hEq⟩ := hnd
  have hjl : j < l.length := by simpa using hj
  have hil : i < l.length := Nat.lt_trans hij hjl
  have hj2 : j < (l.map xf).length := by simpa using hjl
  have hi2 : i < (l.map xf).length := by simpa using hil
  have hgd : (l.map xf).getD i 0 = (l.map xf).getD j 0 := by
    rw [List.getD_eq_getElem _ 0 hi2, List.getD_eq_getElem _ 0 hj2]
    rw [List.getElem?_eq_getElem hi2, List.getElem?_eq_getElem hj2] at hEq
    exact Option.some_inj.mp hEq
  rw [reconstructEV_none_iff]
  refine ⟨j, hjl, ?_⟩
  rw [lambda_coeff_none_iff]
  exact ⟨i, hi2, Nat.ne_of_lt hij, sub_eq_zero.mpr hgd⟩

/-- Permuting the fragments permutes the coordinate list with them and
leaves the reconstruction outcome unchanged. -/
theorem reconstructEV_perm {q : ℕ} {I : Type} (xf : CapsuleFrag q I → ZMod q)
    (l1 l2 : List (CapsuleFrag q I)) (hperm : l1.Perm l2) :
    reconstructEV (l1.map xf) l1 = reconstructEV (l2.map xf) l2 := by
  have hpermlc := hperm.map xf
  by_cases hnd1 : (l1.map xf).Nodup
  · have hnd2 := (List.Perm.nodup_iff hpermlc).mp hnd1
    rw [reconstructEV_value_sums xf l1 hnd1, reconstructEV_value_sums xf l2 hnd2]
    have hlam : ∀ v : ZMod q, lamOf (l2.map xf) v = lamOf (l1.map xf) v := by
      intro v
      unfold lamOf
      exact (List.Perm.prod_eq ((hpermlc.erase v).map _)).symm
    simp only [hlam]
    rw [List.Perm.sum_eq (hperm.map fun f => f.point_e1 * lamOf (l1.map xf) (xf f)),
      List.Perm.sum_eq (hperm.map fun f => f.point_v1 * lamOf (l1.map xf) (xf f))]
  · have hnd2 : ¬(l2.map xf).Nodup := fun h =>
      hnd1 ((List.Perm.nodup_iff hpermlc).mpr h)
    rw [reconstructEV_none_of_not_nodup xf l1 hnd1,
      reconstructEV_none_of_not_nodup xf l2 hnd2]

/-- C6: permuting the fragment list does not change the outcome of
open_reencrypted: the same shared secret is returned, or the same error
variant. -/
theorem open_reencrypted_perm_invariant {q : ℕ} {I : Type} (env : Env q I)
    (c : Capsule q) (sk pk : ZMod q) (l1 l2 : List (CapsuleFrag q I))
    (hperm : l1.Perm l2) :
    open_reencrypted env c sk pk l1 = open_reencrypted env c sk pk l2 := by
  cases l1 with
  | nil =>
    rw [List.Perm.eq_nil hperm.symm]
  | cons a t1 =>
    cases l2 with
    | nil =>
      have := hperm.length_eq
      simp at this
    | cons b t2 =>
      by_cases hcons : ∀ f ∈ a :: t1, f.precursor = a.precursor
      · have hbmem : b ∈ a :: t1 := hperm.mem_iff.mpr (List.mem_cons_self _ _)
        have hbp : b.precursor = a.precursor := hcons b hbmem
        have hcons2 : ∀ f ∈ b :: t2, f.precursor = b.precursor := by
          intro f hf
          rw [hbp]
          exact hcons f (hperm.mem_iff.mpr hf)
        rw [open_reencrypted_consistent env c sk pk a t1 hcons,
          open_reencrypted_consistent env c sk pk b t2 hcons2, hbp]
        have hco : ∀ (l : List (CapsuleFrag q I)), coordsOf env sk a.precursor l
            = l.map fun f => env.hashToPolynomialArg a.precursor
                (publicKeyPoint env sk) (a.precursor * sk) f.kfrag_id := fun _ => rfl
        rw [hco, hco,
          reconstructEV_perm (fun f => env.hashToPolynomialArg a.precursor
            (publicKeyPoint env sk) (a.precursor * sk) f.kfrag_id) (a :: t1) (b :: t2) hperm]
      · have hcons2 : ¬ ∀ f ∈ b :: t2, f.precursor = b.precursor := by
          intro h2
          apply hcons
          intro f hf
          rw [h2 f (hperm.mem_iff.mp hf),
            h2 a (hperm.mem_iff.mp (List.mem_cons_self _ _))]
        rw [open_reencrypted_mismatched env c sk pk a t1 hcons,
          open_reencrypted_mismatched env c sk pk b t2 hcons2]

/-- Witness for C6 at a concrete input. -/
theorem open_reencrypted_perm_invariant_witness :
    ([fragW, ⟨1, 1, 2, 0⟩] : List (CapsuleFrag 5 ℕ)).Perm [⟨1, 1, 2, 0⟩, fragW]
      ∧ open_reencrypted envW capW 0 0 [fragW, ⟨1, 1, 2, 0⟩]
        = open_reencrypted envW capW 0 0 [⟨1, 1, 2, 0⟩, fragW] :=
  ⟨by decide, open_reencrypted_perm_invariant envW capW 0 0 _ _ (by decide)⟩

/-- Witness for C8 at a concrete input. -/
theorem open_reencrypted_repeating_iff_witness :
    ([fragW, fragW] : List (CapsuleFrag 5 ℕ)) ≠ []
      ∧ (∀ f ∈ ([fragW, fragW] : List (CapsuleFrag 5 ℕ)), f.precursor = 0)
      ∧ ((open_reencrypted envW capW 0 0 [fragW, fragW]
            = .error .RepeatingCapsuleFrags
          ↔ ∃ i j, i < ([fragW, fragW] : List (CapsuleFrag 5 ℕ)).length
              ∧ j < ([fragW, fragW] : List (CapsuleFrag 5 ℕ)).length ∧ i ≠ j
              ∧ (coordsOf envW 0 0 [fragW, fragW]).getD i 0
                = (coordsOf envW 0 0 [fragW, fragW]).getD j 0)
        ∧ ∀ (xs : List (ZMod 5)) (i : ℕ),
            (lambda_coeff xs i = none
              ↔ ∃ j, j < xs.length ∧ j ≠ i
                  ∧ invert (xs.getD j 0 - xs.getD i 0) = none)) :=
  ⟨by decide, by decide,
    open_reencrypted_repeating_iff envW capW 0 0 [fragW, fragW] 0
      (by decide) (by decide)⟩

/-- Witness for C9 at a concrete input. -/
theorem open_reencrypted_zerohash_iff_witness :
    ([fragW] : List (CapsuleFrag 5 ℕ)) ≠ []
      ∧ (∀ f ∈ ([fragW] : List (CapsuleFrag 5 ℕ)), f.precursor = 0)
      ∧ (coordsOf envW 0 0 [fragW]).Nodup
      ∧ (open_reencrypted envW capW 0 0 [fragW] = .error .ZeroHash
          ↔ dOf envW 0 0 = 0) :=
  ⟨by decide, by decide, by decide,
    open_reencrypted_zerohash_iff envW capW 0 0 [fragW] 0
      (by decide) (by decide) (by decide)⟩

/-- Witness for C1 at a concrete input. -/
theorem open_reencrypted_lagrange_validation_witness :
    ([fragW] : List (CapsuleFrag 5 ℕ)) ≠ []
      ∧ (∀ f ∈ ([fragW] : List (CapsuleFrag 5 ℕ)), f.precursor = 0)
      ∧ (coordsOf envW 0 0 [fragW]).Nodup
      ∧ dOf envW 0 0 ≠ 0
      ∧ ∃ ep vp,
          reconstructEV (coordsOf envW 0 0 [fragW]) [fragW] = some (ep, vp)
            ∧ ep = (([fragW] : List (CapsuleFrag 5 ℕ)).enum.map fun ic =>
                ic.2.point_e1 *
                  ((lambda_coeff (coordsOf envW 0 0 [fragW]) ic.1).getD 0)).sum
            ∧ vp = (([fragW] : List (CapsuleFrag 5 ℕ)).enum.map fun ic =>
                ic.2.point_v1 *
                  ((lambda_coeff (coordsOf envW 0 0 [fragW]) ic.1).getD 0)).sum
            ∧ open_reencrypted envW capW 0 0 [fragW]
              = if (0 : ZMod 5) * (capW.signature * (dOf envW 0 0)⁻¹)
                    = ep * envW.hashCapsulePoints capW.point_e capW.point_v + vp
                then .ok ((ep + vp) * dOf envW 0 0)
                else .error .ValidationFailed :=
  ⟨by decide, by decide, by decide, by decide,
    open_reencrypted_lagrange_validation envW capW 0 0 [fragW] 0
      (by decide) (by decide) (by decide) (by decide)⟩

end Umbral
